import Mathlib

/-!
Shallow embedding of src/econometrics.py.

Floats are modelled as exact rationals; a float NaN (pandas "missing"
value) is modelled as the value none of Option ℚ.  A pandas Series
indexed by dates is modelled as a list of (date, value) pairs whose
dates (naturals) are strictly increasing; a plain positional Series is
a bare list.
-/

namespace Econometrics

/-- Float multiplication where NaN (none) propagates, as in IEEE floats. -/
def nmul : Option ℚ → Option ℚ → Option ℚ
  | some a, some b => some (a * b)
  | _, _ => none

/-- Float addition where NaN (none) propagates, as in IEEE floats. -/
def nadd : Option ℚ → Option ℚ → Option ℚ
  | some a, some b => some (a + b)
  | _, _ => none

/-- pandas Series.var(): sample variance with ddof = 1; NaN when fewer
than two observations are present. -/
def sampleVar (xs : List ℚ) : Option ℚ :=
  if 2 ≤ xs.length then
    some ((xs.map (fun x => (x - xs.sum / (xs.length : ℚ)) ^ 2)).sum / ((xs.length : ℚ) - 1))
  else none

/-- pandas Series.var() on a series that may contain NaN entries:
NaN entries are skipped (skipna default). -/
def sampleVarOpt (xs : List (Option ℚ)) : Option ℚ :=
  sampleVar (xs.filterMap id)

/-- One step of the RiskMetrics recursion, line 73 of the source:
variance[i] = 0.94 * variance[i-1] + 0.06 * returns[i-1] ** 2,
in NaN-propagating float arithmetic (0.94 = 47/50, 0.06 = 3/50). -/
def rmStep (vp rp : Option ℚ) : Option ℚ :=
  nadd (nmul (some (47 / 50)) vp) (nmul (some (3 / 50)) (nmul rp rp))

/-- The tail of the variance series produced by the loop at lines 72-73:
given the previous variance value and the list of returns r[start-1..n-2]
feeding the recursion, produce [v[start], ..., v[n-1]]. -/
def rmSteps : Option ℚ → List (Option ℚ) → List (Option ℚ)
  | _, [] => []
  | vp, r :: rest => rmStep vp r :: rmSteps (rmStep vp r) rest

/-- risk_metrics_variance (source lines 62-75).  The result is none when
the positional accesses the source performs are outside the series
(returns[0] on an empty series; the variance[1] assignment when only one
observation exists), i.e. when the source raises instead of returning.
Otherwise:
  * if returns[0] is NaN: v[0] = NaN, v[1] = returns.var(), and the
    loop runs from index 2;
  * else v[0] = returns.var() and the loop runs from index 1;
each loop iteration sets v[i] = 0.94*v[i-1] + 0.06*returns[i-1]^2. -/
def risk_metrics_variance (returns : List (Option ℚ)) : Option (List (Option ℚ)) :=
  match returns with
  | [] => none
  | r0 :: rest =>
    if r0 = none then
      match rest with
      | [] => none
      | _ :: _ =>
        some (none :: sampleVarOpt returns ::
          rmSteps (sampleVarOpt returns) rest.dropLast)
    else
      some (sampleVarOpt returns :: rmSteps (sampleVarOpt returns) returns.dropLast)

/-- Python list/iloc slicing xs[start:stop]: a negative bound counts
from the end, bounds are clipped into [0, len], and an empty range
yields the empty list. -/
def pySlice (xs : List ℚ) (start stop : ℤ) : List ℚ :=
  let n : ℤ := xs.length
  let s := if start < 0 then max 0 (n + start) else min start n
  let e := if stop < 0 then max 0 (n + stop) else min stop n
  (xs.drop s.toNat).take (e - s).toNat

/-- rets[start_date:end_date].index: the dates of the series falling in
the inclusive label range (source lines 102 and 134). -/
def evalDays (rets : List (ℕ × ℚ)) (startD endD : ℕ) : List ℕ :=
  (rets.filter (fun p => decide (startD ≤ p.1) && decide (p.1 ≤ endD))).map Prod.fst

/-- rets.index.get_loc(day): position of day in the index (source
lines 103 and 135).  For a strictly-increasing index containing day this
is the unique position of day; get_loc raising KeyError (day absent) is
never reached by the source, whose days come from the index itself. -/
def getLoc (rets : List (ℕ × ℚ)) (day : ℕ) : ℕ :=
  rets.findIdx (fun p => decide (p.1 = day))

/-- pandas Series.quantile(q) with the default linear interpolation:
sort ascending, take the virtual rank h = q*(n-1), and interpolate
linearly between the order statistics at ⌊h⌋ and ⌈h⌉.  NaN on an empty
series. -/
def quantileLinear (xs : List ℚ) (q : ℚ) : Option ℚ :=
  if xs.length = 0 then none
  else
    let s := xs.mergeSort (fun a b => decide (a ≤ b))
    let h : ℚ := q * ((xs.length : ℚ) - 1)
    some (s.getD (⌊h⌋.toNat) 0 + (h - (⌊h⌋ : ℚ)) * (s.getD (⌈h⌉.toNat) 0 - s.getD (⌊h⌋.toNat) 0))

/-- The value var_historical_simulation computes for one evaluation day
(source lines 103-105): negate the linear-interpolation quantile at
probability (1 - confidence) of the iloc slice [day_idx - m, day_idx)
of the return values.  none models a NaN entry (empty window). -/
def dayVarHS (rets : List (ℕ × ℚ)) (m : ℕ) (confidence : ℚ) (day : ℕ) : Option ℚ :=
  let i := getLoc rets day
  (quantileLinear (pySlice (rets.map Prod.snd) ((i : ℤ) - (m : ℤ)) (i : ℤ))
      (1 - confidence)).map (fun q => -q)

/-- var_historical_simulation (source lines 78-106): one output entry
per day of rets[start_date:end_date].index, in order. -/
def var_historical_simulation (rets : List (ℕ × ℚ)) (startD endD : ℕ) (m : ℕ)
    (confidence : ℚ) : List (ℕ × Option ℚ) :=
  (evalDays rets startD endD).map (fun day => (day, dayVarHS rets m confidence day))

/-- The inner loop of var_weighted_historical_simulation (source lines
140-144): scan the sorted (return, weight) pairs accumulating the
cumulative weight; at the first position where it reaches the threshold
t = 1 - confidence, return the negated return and stop.  none when the
threshold is never reached (the source then leaves var[day] unassigned). -/
def cumFirst (t : ℚ) : ℚ → List (ℚ × ℚ) → Option ℚ
  | _, [] => none
  | acc, (r, w) :: rest => if t ≤ acc + w then some (-r) else cumFirst t (acc + w) rest

/-- sort_values(by = ret) at source line 138: sort the (return, weight)
pairs by return ascending, weights travelling with their return. -/
def sortByRet (pairs : List (ℚ × ℚ)) : List (ℚ × ℚ) :=
  pairs.mergeSort (fun a b => decide (a.1 ≤ b.1))

/-- The value var_weighted_historical_simulation computes for one
evaluation day (source lines 135-144) on the regular path: pair the
iloc slice [day_idx - m, day_idx) of returns positionally with the
weights, sort the pairs by return, and look up the first
cumulative-weight threshold crossing.  none models the day being left
without an entry.  The zip pairing equals the row alignment of the
concat at source line 136 exactly when the window has as many rows as
the weight vector (the i ≥ m, weights.length = m domain in which this
form is used); windows shorter than the weight vector are NaN-padded
by the concat, which dayVarWHSConcat below models in full. -/
def dayVarWHS (rets : List (ℕ × ℚ)) (m : ℕ) (weights : List ℚ) (confidence : ℚ)
    (day : ℕ) : Option ℚ :=
  let i := getLoc rets day
  let window := pySlice (rets.map Prod.snd) ((i : ℤ) - (m : ℤ)) (i : ℤ)
  cumFirst (1 - confidence) 0 (sortByRet (window.zip weights))

/-- var_weighted_historical_simulation (source lines 109-145): one
output entry per day whose scan crossed the threshold; a day whose scan
never crossed it is silently absent from the output. -/
def var_weighted_historical_simulation (rets : List (ℕ × ℚ)) (startD endD : ℕ)
    (m : ℕ) (weights : List ℚ) (confidence : ℚ) : List (ℕ × ℚ) :=
  (evalDays rets startD endD).filterMap
    (fun day => (dayVarWHS rets m weights confidence day).map (fun v => (day, v)))

/-- pd.concat([window.reset_index(drop=True), weights], axis=1) at
source line 136: an outer join of the two positional indexes 0..len-1,
so the result has max(window rows, weight rows) rows, and the shorter
side is filled with NaN (none).  When both sides have the same number
of rows this is exactly the positional zip used by dayVarWHS. -/
def concatOuter (window weights : List ℚ) : List (Option ℚ × Option ℚ) :=
  (List.range (max window.length weights.length)).map (fun k => (window[k]?, weights[k]?))

/-- The sort key of sort_values(by = ret) including pandas NaN
placement: a row whose return is NaN sorts after every row with a real
return (na_position default), and NaN rows keep their relative order. -/
def retLe (a b : Option ℚ × Option ℚ) : Bool :=
  match a.1, b.1 with
  | some x, some y => decide (x ≤ y)
  | some _, none => true
  | none, some _ => false
  | none, none => true

/-- sort_values(by = ret) at source line 138 on the concat-aligned
rows: sort by return ascending with NaN returns last, each row's
weight travelling with it. -/
def sortByRetFull (pairs : List (Option ℚ × Option ℚ)) : List (Option ℚ × Option ℚ) :=
  pairs.mergeSort retLe

/-- The loop at source lines 140-144 over the concat-aligned rows, with
the cumsum's skipna semantics: a row with a NaN weight has a NaN
cumulative weight, NaN >= t is false, so the row is passed over and
contributes nothing to the running sum; at the first row whose real
cumulative weight reaches t = 1 - confidence, the day's entry is
assigned the negated return of that row, which is itself NaN (none)
when that return is a concat filler.  The outer none means the loop
never broke and var[day] was never assigned. -/
def cumFirstFull (t : ℚ) : ℚ → List (Option ℚ × Option ℚ) → Option (Option ℚ)
  | _, [] => none
  | acc, (r, w) :: rest =>
    match w with
    | none => cumFirstFull t acc rest
    | some wv =>
      if t ≤ acc + wv then some (r.map (fun x => -x)) else cumFirstFull t (acc + wv) rest

/-- The per-day value of var_weighted_historical_simulation (source
lines 135-144) under the concat's full NaN-fill semantics, which also
covers windows shorter than the weight vector (the i < m underflow
path); some none models a NaN entry being assigned for the day. -/
def dayVarWHSConcat (rets : List (ℕ × ℚ)) (m : ℕ) (weights : List ℚ) (confidence : ℚ)
    (day : ℕ) : Option (Option ℚ) :=
  let i := getLoc rets day
  let window := pySlice (rets.map Prod.snd) ((i : ℤ) - (m : ℤ)) (i : ℤ)
  cumFirstFull (1 - confidence) 0 (sortByRetFull (concatOuter window weights))

/-- var_weighted_historical_simulation (source lines 109-145) under the
concat's full NaN-fill semantics of dayVarWHSConcat: one output entry
per day whose scan broke (with value none when a NaN was assigned),
and no entry for a day whose scan never broke. -/
def var_weighted_historical_simulation_concat (rets : List (ℕ × ℚ)) (startD endD : ℕ)
    (m : ℕ) (weights : List ℚ) (confidence : ℚ) : List (ℕ × Option ℚ) :=
  (evalDays rets startD endD).filterMap
    (fun day => (dayVarWHSConcat rets m weights confidence day).map (fun v => (day, v)))

/-- The dates of a series are strictly increasing (the series is sorted
ascending by date with no duplicate dates). -/
def sortedDates (rets : List (ℕ × ℚ)) : Prop :=
  List.Pairwise (fun a b => a < b) (rets.map Prod.fst)

instance (rets : List (ℕ × ℚ)) : Decidable (sortedDates rets) := by
  unfold sortedDates; infer_instance

/-- Modelled from the spec: a historical-simulation variant whose
per-day quantile uses the inverse-CDF (lower order statistic)
convention instead of linear interpolation: the VaR for a day is the
negated j-th smallest window return, where j is the first index whose
cumulative uniform mass (j+1)/m reaches 1 - confidence, i.e.
j = ⌈(1-c)·m⌉ - 1.  This is the unweighted reduction of the weighted
estimator's threshold scan; it exists only for comparison with
var_historical_simulation under claim C7. -/
def var_historical_simulation_lower (rets : List (ℕ × ℚ)) (startD endD : ℕ) (m : ℕ)
    (confidence : ℚ) : List (ℕ × ℚ) :=
  (evalDays rets startD endD).map (fun day =>
    let i := getLoc rets day
    let window := pySlice (rets.map Prod.snd) ((i : ℤ) - (m : ℤ)) (i : ℤ)
    let s := window.mergeSort (fun a b => decide (a ≤ b))
    (day, -(s.getD ((⌈(1 - confidence) * (window.length : ℚ)⌉).toNat - 1) 0)))

/-! ### Helper lemmas -/

theorem rmSteps_length (vp : Option ℚ) (rs : List (Option ℚ)) :
    (rmSteps vp rs).length = rs.length := by
  induction rs generalizing vp with
  | nil => rfl
  | cons r rest ih => simp [rmSteps, ih]

theorem rmChain_getD (rs : List (Option ℚ)) (vp : Option ℚ) (i : ℕ) (h : i < rs.length) :
    (vp :: rmSteps vp rs).getD (i + 1) none =
      rmStep ((vp :: rmSteps vp rs).getD i none) (rs.getD i none) := by
  induction rs generalizing vp i with
  | nil => simp at h
  | cons r rest ih =>
    cases i with
    | zero => simp [rmSteps]
    | succ k =>
      have hk : k < rest.length := by simpa using Nat.lt_of_succ_lt_succ h
      have := ih (rmStep vp r) k hk
      simpa [rmSteps, List.getD_cons_succ] using this

theorem getD_dropLast {α : Type} (l : List α) (d : α) (i : ℕ) (h : i < l.length - 1) :
    l.dropLast.getD i d = l.getD i d := by
  rw [List.dropLast_eq_take]
  rw [List.getD_eq_getElem?_getD, List.getD_eq_getElem?_getD]
  rw [List.getElem?_take, if_pos h]

theorem mem_evalDays {rets : List (ℕ × ℚ)} {sD eD d : ℕ} :
    d ∈ evalDays rets sD eD ↔ d ∈ rets.map Prod.fst ∧ sD ≤ d ∧ d ≤ eD := by
  simp only [evalDays, List.mem_map, List.mem_filter, Bool.and_eq_true, decide_eq_true_eq]
  constructor
  · rintro ⟨p, ⟨hp, h1, h2⟩, rfl⟩
    exact ⟨⟨p, hp, rfl⟩, h1, h2⟩
  · rintro ⟨⟨p, hp, rfl⟩, h1, h2⟩
    exact ⟨p, ⟨hp, h1, h2⟩, rfl⟩

theorem lookup_map_self {β : Type} (l : List ℕ) (f : ℕ → β) (d : ℕ) (hd : d ∈ l) :
    List.lookup d (l.map (fun x => (x, f x))) = some (f d) := by
  induction l with
  | nil => simp at hd
  | cons x rest ih =>
    by_cases hx : d = x
    · subst hx
      simp [List.lookup_cons]
    · rcases List.mem_cons.mp hd with h | h
      · exact absurd h hx
      · simp [List.lookup_cons, beq_false_of_ne hx, ih h]

theorem lookup_map_self_none {β : Type} (l : List ℕ) (f : ℕ → β) (d : ℕ) (hd : d ∉ l) :
    List.lookup d (l.map (fun x => (x, f x))) = none := by
  induction l with
  | nil => simp
  | cons x rest ih =>
    have hx : d ≠ x := fun h => hd (h ▸ List.mem_cons_self x rest)
    have hr : d ∉ rest := fun h => hd (List.mem_cons_of_mem x h)
    simp [List.lookup_cons, beq_false_of_ne hx, ih hr]

theorem lookup_filterMap_pairs_none {β : Type} (l : List ℕ) (f : ℕ → Option β) (d : ℕ)
    (hd : d ∉ l) :
    List.lookup d (l.filterMap (fun x => (f x).map (fun v => (x, v)))) = none := by
  induction l with
  | nil => simp
  | cons x rest ih =>
    have hx : d ≠ x := fun h => hd (h ▸ List.mem_cons_self x rest)
    have hr : d ∉ rest := fun h => hd (List.mem_cons_of_mem x h)
    cases hfx : f x with
    | none => simpa [List.filterMap_cons, hfx] using ih hr
    | some v => simp [List.filterMap_cons, hfx, List.lookup_cons, beq_false_of_ne hx, ih hr]

theorem lookup_filterMap_pairs {β : Type} (l : List ℕ) (f : ℕ → Option β) (d : ℕ)
    (hnd : l.Nodup) (hd : d ∈ l) :
    List.lookup d (l.filterMap (fun x => (f x).map (fun v => (x, v)))) = f d := by
  induction l with
  | nil => simp at hd
  | cons x rest ih =>
    have hnr : rest.Nodup := (List.nodup_cons.mp hnd).2
    by_cases hx : d = x
    · subst hx
      have hdr : d ∉ rest := (List.nodup_cons.mp hnd).1
      cases hfx : f d with
      | none => simpa [List.filterMap_cons, hfx] using lookup_filterMap_pairs_none rest f d hdr
      | some v => simp [List.filterMap_cons, hfx, List.lookup_cons]
    · rcases List.mem_cons.mp hd with h | h
      · exact absurd h hx
      · cases hfx : f x with
        | none => simpa [List.filterMap_cons, hfx] using ih hnr h
        | some v =>
          simp [List.filterMap_cons, hfx, List.lookup_cons, beq_false_of_ne hx, ih hnr h]

theorem getLoc_eq (rets : List (ℕ × ℚ)) (hsort : sortedDates rets) (i : ℕ) (d : ℕ)
    (hi : (rets.map Prod.fst)[i]? = some d) : getLoc rets d = i := by
  induction rets generalizing i with
  | nil => simp at hi
  | cons p rest ih =>
    have hsr : sortedDates rest := by
      simpa [sortedDates] using (List.pairwise_cons.mp hsort).2
    cases i with
    | zero =>
      simp only [List.map_cons, List.getElem?_cons_zero, Option.some.injEq] at hi
      simp [getLoc, List.findIdx_cons, hi]
    | succ k =>
      simp only [List.map_cons, List.getElem?_cons_succ] at hi
      have hdm : d ∈ rest.map Prod.fst := List.getElem?_mem hi
      have hlt : p.1 < d := by
        have := (List.pairwise_cons.mp hsort).1
        exact this d hdm
      have hne : ¬(p.1 = d) := Nat.ne_of_lt hlt
      have hrec := ih hsr k hi
      simp only [getLoc] at hrec ⊢
      simp [List.findIdx_cons, hne, hrec]

theorem pySlice_eq (xs : List ℚ) (a b : ℕ) (hab : a ≤ b) (hb : b ≤ xs.length) :
    pySlice xs (a : ℤ) (b : ℤ) = (xs.drop a).take (b - a) := by
  unfold pySlice
  have ha0 : ¬((a : ℤ) < 0) := by omega
  have hb0 : ¬((b : ℤ) < 0) := by omega
  simp only [ha0, hb0, if_false]
  have h1 : (min (a : ℤ) (xs.length : ℤ)).toNat = a := by omega
  have h2 : ((min (b : ℤ) (xs.length : ℤ)) - min (a : ℤ) (xs.length : ℤ)).toNat = b - a := by
    omega
  rw [h1, h2]

theorem window_eq (rets : List (ℕ × ℚ)) (i m : ℕ) (hm : m ≤ i) (hi : i ≤ rets.length) :
    pySlice (rets.map Prod.snd) ((i : ℤ) - (m : ℤ)) (i : ℤ) =
      ((rets.map Prod.snd).drop (i - m)).take m := by
  have hcast : ((i : ℤ) - (m : ℤ)) = ((i - m : ℕ) : ℤ) := by omega
  rw [hcast, pySlice_eq (rets.map Prod.snd) (i - m) i (by omega) (by simpa using hi)]
  congr 1
  omega

theorem window_length (xs : List ℚ) (i m : ℕ) (hm : m ≤ i) (hi : i ≤ xs.length) :
    ((xs.drop (i - m)).take m).length = m := by
  simp only [List.length_take, List.length_drop]
  omega

theorem mergeSort_rat_sorted (xs : List ℚ) :
    List.Sorted (fun a b : ℚ => a ≤ b) (xs.mergeSort (fun a b => decide (a ≤ b))) := by
  have h := @List.sorted_mergeSort ℚ (fun a b : ℚ => decide (a ≤ b))
    (fun a b c hab hbc => by
      simp only [decide_eq_true_eq] at *
      exact le_trans hab hbc)
    (fun a b => by
      simp only [Bool.or_eq_true, decide_eq_true_eq]
      exact le_total a b) xs
  exact List.Pairwise.imp (fun hab => by simpa using hab) h

/-! ### Claim C3: the RiskMetrics variance recursion -/

/-- Claim C3: for every return sequence r of length n ≥ 2,
risk_metrics_variance returns a variance sequence of the same length
and index alignment such that: if r[0] is undefined (NaN) then v[0] is
undefined, v[1] equals the sample variance of the whole return
sequence, and for every i ≥ 2, v[i] = 0.94*v[i-1] + 0.06*r[i-1]^2;
otherwise v[0] equals the sample variance of the whole sequence and
the same recursion holds for every i ≥ 1.  The last conjunct records
that one recursion step on defined values is exactly
0.94*v + 0.06*r^2. -/
theorem c3_risk_metrics_variance_spec (returns : List (Option ℚ))
    (h2 : 2 ≤ returns.length) :
    ∃ vs, risk_metrics_variance returns = some vs ∧
      vs.length = returns.length ∧
      (returns.getD 0 none = none →
        vs.getD 0 none = none ∧
        vs.getD 1 none = sampleVarOpt returns ∧
        ∀ i, 2 ≤ i → i < returns.length →
          vs.getD i none = rmStep (vs.getD (i - 1) none) (returns.getD (i - 1) none)) ∧
      (returns.getD 0 none ≠ none →
        vs.getD 0 none = sampleVarOpt returns ∧
        ∀ i, 1 ≤ i → i < returns.length →
          vs.getD i none = rmStep (vs.getD (i - 1) none) (returns.getD (i - 1) none)) ∧
      (∀ a b : ℚ, rmStep (some a) (some b) = some (47 / 50 * a + 3 / 50 * b ^ 2)) := by
  obtain ⟨r0, rest, rfl⟩ : ∃ r0 rest, returns = r0 :: rest := by
    cases returns with
    | nil => simp at h2
    | cons a l => exact ⟨a, l, rfl⟩
  by_cases hr0 : r0 = none
  · obtain ⟨r1, rest2, rfl⟩ : ∃ r1 rest2, rest = r1 :: rest2 := by
      cases rest with
      | nil => simp at h2
      | cons a l => exact ⟨a, l, rfl⟩
    subst hr0
    refine ⟨none :: sampleVarOpt (none :: r1 :: rest2) ::
        rmSteps (sampleVarOpt (none :: r1 :: rest2)) ((r1 :: rest2).dropLast),
      by simp [risk_metrics_variance], ?_, ?_, ?_, ?_⟩
    · simp [rmSteps_length]
    · intro _
      refine ⟨rfl, rfl, ?_⟩
      intro i h2i hlt
      obtain ⟨k, rfl⟩ : ∃ k, i = k + 2 := ⟨i - 2, by omega⟩
      have hk : k < ((r1 :: rest2).dropLast).length := by
        simp only [List.length_dropLast, List.length_cons] at *
        omega
      have hch := rmChain_getD ((r1 :: rest2).dropLast)
        (sampleVarOpt (none :: r1 :: rest2)) k hk
      have hdl : ((r1 :: rest2).dropLast).getD k none = (r1 :: rest2).getD k none := by
        apply getD_dropLast
        simp only [List.length_cons] at *
        omega
      have hidx : k + 2 - 1 = k + 1 := rfl
      rw [hidx]
      simp only [List.getD_cons_succ] at hch ⊢
      rw [hch, hdl]
    · intro h
      simp at h
    · intro a b
      simp only [rmStep, nmul, nadd]
      rw [pow_two]
  · refine ⟨sampleVarOpt (r0 :: rest) ::
        rmSteps (sampleVarOpt (r0 :: rest)) ((r0 :: rest).dropLast),
      by simp [risk_metrics_variance, hr0], ?_, ?_, ?_, ?_⟩
    · simp [rmSteps_length]
    · intro h
      simp only [List.getD_cons_zero] at h
      exact absurd h hr0
    · intro _
      refine ⟨rfl, ?_⟩
      intro i h1i hlt
      obtain ⟨k, rfl⟩ : ∃ k, i = k + 1 := ⟨i - 1, by omega⟩
      have hk : k < ((r0 :: rest).dropLast).length := by
        simp only [List.length_dropLast, List.length_cons] at *
        omega
      have hch := rmChain_getD ((r0 :: rest).dropLast)
        (sampleVarOpt (r0 :: rest)) k hk
      have hdl : ((r0 :: rest).dropLast).getD k none = (r0 :: rest).getD k none := by
        apply getD_dropLast
        simp only [List.length_cons] at *
        omega
      have hidx : k + 1 - 1 = k := rfl
      rw [hidx, hch, hdl]
    · intro a b
      simp only [rmStep, nmul, nadd]
      rw [pow_two]

/-- Witness for claim C3 at the concrete input [NaN, 1, 2]. -/
theorem c3_witness :
    2 ≤ ([none, some 1, some 2] : List (Option ℚ)).length ∧
    (∃ vs, risk_metrics_variance [none, some 1, some 2] = some vs ∧
      vs.length = ([none, some 1, some 2] : List (Option ℚ)).length ∧
      (([none, some 1, some 2] : List (Option ℚ)).getD 0 none = none →
        vs.getD 0 none = none ∧
        vs.getD 1 none = sampleVarOpt [none, some 1, some 2] ∧
        ∀ i, 2 ≤ i → i < ([none, some 1, some 2] : List (Option ℚ)).length →
          vs.getD i none =
            rmStep (vs.getD (i - 1) none)
              (([none, some 1, some 2] : List (Option ℚ)).getD (i - 1) none)) ∧
      (([none, some 1, some 2] : List (Option ℚ)).getD 0 none ≠ none →
        vs.getD 0 none = sampleVarOpt [none, some 1, some 2] ∧
        ∀ i, 1 ≤ i → i < ([none, some 1, some 2] : List (Option ℚ)).length →
          vs.getD i none =
            rmStep (vs.getD (i - 1) none)
              (([none, some 1, some 2] : List (Option ℚ)).getD (i - 1) none)) ∧
      (∀ a b : ℚ, rmStep (some a) (some b) = some (47 / 50 * a + 3 / 50 * b ^ 2))) :=
  ⟨by decide, c3_risk_metrics_variance_spec [none, some 1, some 2] (by decide)⟩

/-! ### Claim C6: a one-observation return series -/

/-- Claim C6 (code behavior at the failing input): on the one-element
return series [0.01], risk_metrics_variance does not fail: it returns a
one-element variance series whose sole entry is NaN (the sample
variance of a single observation), contradicting the claimed
InsufficientData failure. -/
theorem c6_single_observation :
    risk_metrics_variance [some (1 / 100 : ℚ)] = some [none] := by decide

/-! ### Claim C1: the historical-simulation quantile -/

/-- Claim C1: for every return series sorted ascending by date, every
evaluation day d in [start_date, end_date] whose position i in the
index satisfies i ≥ m, and every confidence c in (0,1),
var_historical_simulation assigns to day d the negation of the
empirical quantile at probability (1 - c) over the window of the m
returns strictly preceding i (slice [i-m, i)), computed by linear
interpolation between order statistics at rank h = (1-c)*(m-1): with s
the ascending sort of that window (a sorted permutation of it, as the
last two conjuncts state), the assigned value is
-(s[⌊h⌋] + (h - ⌊h⌋) * (s[⌈h⌉] - s[⌊h⌋])). -/
theorem c1_var_historical_simulation_spec
    (rets : List (ℕ × ℚ)) (sD eD m i d : ℕ) (c : ℚ)
    (hsort : sortedDates rets)
    (hd : (rets.map Prod.fst)[i]? = some d)
    (h1 : sD ≤ d) (h2 : d ≤ eD)
    (hm1 : 1 ≤ m) (hmi : m ≤ i)
    (_hc0 : 0 < c) (_hc1 : c < 1) :
    List.lookup d (var_historical_simulation rets sD eD m c) =
      some (some
        (-(((((rets.map Prod.snd).drop (i - m)).take m).mergeSort
              (fun a b => decide (a ≤ b))).getD (⌊(1 - c) * ((m : ℚ) - 1)⌋.toNat) 0 +
          ((1 - c) * ((m : ℚ) - 1) - (⌊(1 - c) * ((m : ℚ) - 1)⌋ : ℚ)) *
            (((((rets.map Prod.snd).drop (i - m)).take m).mergeSort
                (fun a b => decide (a ≤ b))).getD (⌈(1 - c) * ((m : ℚ) - 1)⌉.toNat) 0 -
             ((((rets.map Prod.snd).drop (i - m)).take m).mergeSort
                (fun a b => decide (a ≤ b))).getD (⌊(1 - c) * ((m : ℚ) - 1)⌋.toNat) 0)))) ∧
    ((((rets.map Prod.snd).drop (i - m)).take m).mergeSort
        (fun a b => decide (a ≤ b))).Perm (((rets.map Prod.snd).drop (i - m)).take m) ∧
    List.Sorted (fun a b : ℚ => a ≤ b)
      ((((rets.map Prod.snd).drop (i - m)).take m).mergeSort
        (fun a b => decide (a ≤ b))) := by
  have hilen : i < rets.length := by
    obtain ⟨hlt, _⟩ := List.getElem?_eq_some_iff.mp hd
    simpa using hlt
  have hloc : getLoc rets d = i := getLoc_eq rets hsort i d hd
  have hmem : d ∈ evalDays rets sD eD :=
    mem_evalDays.mpr ⟨List.getElem?_mem hd, h1, h2⟩
  have hlk : List.lookup d (var_historical_simulation rets sD eD m c) =
      some (dayVarHS rets m c d) := by
    unfold var_historical_simulation
    exact lookup_map_self _ _ _ hmem
  have hwin : pySlice (rets.map Prod.snd) ((getLoc rets d : ℤ) - (m : ℤ))
      (getLoc rets d : ℤ) = ((rets.map Prod.snd).drop (i - m)).take m := by
    rw [hloc]
    exact window_eq rets i m hmi (le_of_lt hilen)
  have hwl : (((rets.map Prod.snd).drop (i - m)).take m).length = m :=
    window_length _ i m hmi (by simpa using le_of_lt hilen)
  refine ⟨?_, List.mergeSort_perm _ _, mergeSort_rat_sorted _⟩
  rw [hlk]
  simp only [dayVarHS]
  rw [hwin]
  simp only [quantileLinear]
  rw [hwl]
  rw [if_neg (by omega)]
  simp [Option.map]

unseal Rat.mul Rat.inv Rat.add Rat.sub List.mergeSort List.merge in
/-- Witness for claim C1 at the concrete input: series
[(0, 0.01), (1, -0.02), (2, 0)], range [2,2], m = 2, c = 4/5,
day 2 at position 2. -/
theorem c1_witness :
    sortedDates [(0, 1/100), (1, -1/50), (2, 0)] ∧
    List.lookup 2 (var_historical_simulation [(0, 1/100), (1, -1/50), (2, 0)] 2 2 2 (4/5)) =
      some (some (7/500)) := by
  constructor
  · decide
  · rw [(c1_var_historical_simulation_spec [(0, 1/100), (1, -1/50), (2, 0)] 2 2 2 2 2
      (4/5) (by decide) (by decide) (by decide) (by decide) (by decide) (by decide)
      (by decide) (by decide)).1]
    decide

/-! ### Claim C2: the weighted-historical-simulation threshold scan -/

/-- cum_weights at source line 140: cum_weights[i] is the sum of the
first i+1 weights of the sorted pairs, so cumWeight pairs k is the sum
of the first k weights. -/
def cumWeight (pairs : List (ℚ × ℚ)) (k : ℕ) : ℚ :=
  ((pairs.take k).map Prod.snd).sum

theorem cumWeight_cons (p : ℚ × ℚ) (rest : List (ℚ × ℚ)) (k : ℕ) :
    cumWeight (p :: rest) (k + 1) = p.2 + cumWeight rest k := by
  simp [cumWeight, List.take_succ_cons]

theorem cumWeight_one (p : ℚ × ℚ) (rest : List (ℚ × ℚ)) :
    cumWeight (p :: rest) 1 = p.2 := by
  simp [cumWeight]

theorem cumFirst_first_cross (t : ℚ) (pairs : List (ℚ × ℚ)) :
    ∀ (acc : ℚ) (j : ℕ), j < pairs.length →
      t ≤ acc + cumWeight pairs (j + 1) →
      (∀ k, k < j → acc + cumWeight pairs (k + 1) < t) →
      cumFirst t acc pairs = some (-(pairs.getD j (0, 0)).1) := by
  induction pairs with
  | nil =>
    intro acc j hj
    simp at hj
  | cons p rest ih =>
    intro acc j hj hcross hfirst
    obtain ⟨r, w⟩ := p
    cases j with
    | zero =>
      rw [cumWeight_one] at hcross
      simp [cumFirst, hcross]
    | succ k =>
      have h0 := hfirst 0 (Nat.succ_pos k)
      rw [cumWeight_one] at h0
      have hnot : ¬ t ≤ acc + w := not_le.mpr h0
      simp only [cumFirst, if_neg hnot]
      have hj2 : k < rest.length := by simpa using Nat.lt_of_succ_lt_succ hj
      have hcross2 : t ≤ (acc + w) + cumWeight rest (k + 1) := by
        rw [cumWeight_cons] at hcross
        simp only [Prod.snd] at hcross
        linarith
      have hfirst2 : ∀ k2, k2 < k → (acc + w) + cumWeight rest (k2 + 1) < t := by
        intro k2 hk2
        have := hfirst (k2 + 1) (Nat.succ_lt_succ hk2)
        rw [cumWeight_cons] at this
        simp only [Prod.snd] at this
        linarith
      have := ih (acc + w) k hj2 hcross2 hfirst2
      simpa [List.getD_cons_succ] using this

theorem sortByRet_perm (pairs : List (ℚ × ℚ)) : (sortByRet pairs).Perm pairs :=
  List.mergeSort_perm pairs _

theorem sortByRet_sorted (pairs : List (ℚ × ℚ)) :
    List.Pairwise (fun a b : ℚ × ℚ => a.1 ≤ b.1) (sortByRet pairs) := by
  have h := @List.sorted_mergeSort (ℚ × ℚ) (fun a b : ℚ × ℚ => decide (a.1 ≤ b.1))
    (fun a b c hab hbc => by
      simp only [decide_eq_true_eq] at *
      exact le_trans hab hbc)
    (fun a b => by
      simp only [Bool.or_eq_true, decide_eq_true_eq]
      exact le_total a.1 b.1) pairs
  exact List.Pairwise.imp (fun hab => by simpa using hab) h

theorem evalDays_nodup (rets : List (ℕ × ℚ)) (sD eD : ℕ) (hsort : sortedDates rets) :
    (evalDays rets sD eD).Nodup := by
  unfold evalDays
  have hsub : List.Sublist
      ((rets.filter (fun p => decide (sD ≤ p.1) && decide (p.1 ≤ eD))).map Prod.fst)
      (rets.map Prod.fst) := (List.filter_sublist rets).map Prod.fst
  have hp := List.Pairwise.sublist hsub hsort
  exact hp.imp (fun hab => Nat.ne_of_lt hab)

/-- Claim C2: for every evaluation day d at position i ≥ m with a
weight vector of length m, var_weighted_historical_simulation pairs the
m trailing returns (oldest first) with the corresponding weights, sorts
the pairs by return ascending with weights travelling with their
return (the last two conjuncts: the sorted pairs are a by-return-sorted
permutation of the zipped window), computes cumulative weight sums in
sorted order, and assigns VaR(d) = -return[j] where j is the first
index at which the cumulative weight reaches 1 - c. -/
theorem c2_var_weighted_historical_simulation_spec
    (rets : List (ℕ × ℚ)) (sD eD m i d j : ℕ) (weights : List ℚ) (c : ℚ)
    (hsort : sortedDates rets)
    (hd : (rets.map Prod.fst)[i]? = some d)
    (h1 : sD ≤ d) (h2 : d ≤ eD)
    (hmi : m ≤ i)
    (hwl : weights.length = m)
    (hj : j < m)
    (hcross : 1 - c ≤ cumWeight
        (sortByRet ((((rets.map Prod.snd).drop (i - m)).take m).zip weights)) (j + 1))
    (hfirst : ∀ k, k < j → cumWeight
        (sortByRet ((((rets.map Prod.snd).drop (i - m)).take m).zip weights)) (k + 1) <
        1 - c) :
    List.lookup d (var_weighted_historical_simulation rets sD eD m weights c) =
      some (-((sortByRet
          ((((rets.map Prod.snd).drop (i - m)).take m).zip weights)).getD j (0, 0)).1) ∧
    (sortByRet ((((rets.map Prod.snd).drop (i - m)).take m).zip weights)).Perm
      ((((rets.map Prod.snd).drop (i - m)).take m).zip weights) ∧
    List.Pairwise (fun a b : ℚ × ℚ => a.1 ≤ b.1)
      (sortByRet ((((rets.map Prod.snd).drop (i - m)).take m).zip weights)) := by
  have hilen : i < rets.length := by
    obtain ⟨hlt, _⟩ := List.getElem?_eq_some_iff.mp hd
    simpa using hlt
  have hloc : getLoc rets d = i := getLoc_eq rets hsort i d hd
  have hmem : d ∈ evalDays rets sD eD :=
    mem_evalDays.mpr ⟨List.getElem?_mem hd, h1, h2⟩
  have hwinl : (((rets.map Prod.snd).drop (i - m)).take m).length = m :=
    window_length _ i m hmi (by simpa using le_of_lt hilen)
  have hpl : (sortByRet ((((rets.map Prod.snd).drop (i - m)).take m).zip weights)).length
      = m := by
    rw [(sortByRet_perm _).length_eq, List.length_zip, hwinl, hwl]
    exact Nat.min_self m
  have hday : dayVarWHS rets m weights c d =
      some (-((sortByRet
        ((((rets.map Prod.snd).drop (i - m)).take m).zip weights)).getD j (0, 0)).1) := by
    simp only [dayVarWHS]
    rw [hloc, window_eq rets i m hmi (le_of_lt hilen)]
    apply cumFirst_first_cross (1 - c) _ 0 j (by rw [hpl]; exact hj)
    · simpa using hcross
    · intro k hk
      simpa using hfirst k hk
  refine ⟨?_, sortByRet_perm _, sortByRet_sorted _⟩
  unfold var_weighted_historical_simulation
  rw [lookup_filterMap_pairs (evalDays rets sD eD) (dayVarWHS rets m weights c) d
    (evalDays_nodup rets sD eD hsort) hmem]
  exact hday

unseal Rat.mul Rat.inv Rat.add Rat.sub List.mergeSort List.merge in
/-- Witness for claim C2 at the concrete input: series
[(0, 0.01), (1, -0.02), (2, 0)], range [2,2], m = 2,
weights [0.3, 0.7], c = 4/5; the first crossing is at j = 0 and the
assigned VaR is 0.02. -/
theorem c2_witness :
    sortedDates [(0, 1/100), (1, -1/50), (2, 0)] ∧
    List.lookup 2 (var_weighted_historical_simulation [(0, 1/100), (1, -1/50), (2, 0)]
        2 2 2 [3/10, 7/10] (4/5)) = some (1/50) := by
  constructor
  · decide
  · rw [(c2_var_weighted_historical_simulation_spec [(0, 1/100), (1, -1/50), (2, 0)]
      2 2 2 2 2 0 [3/10, 7/10] (4/5) (by decide) (by decide) (by decide) (by decide)
      (by decide) (by decide) (by decide) (by decide)
      (fun k hk => absurd hk (Nat.not_lt_zero k))).1]
    decide

/-! ### Claim C7: uniform weights versus the unweighted estimator -/

unseal Rat.mul Rat.inv Rat.add Rat.sub List.mergeSort List.merge in
/-- Counterexample to claim C7 as stated: with the uniform weight
vector [1/2, 1/2] and otherwise identical inputs, the weighted
estimator assigns day 2 the VaR 1/50 = 0.02 (inverse-CDF lookup on the
weighted empirical distribution) while the unweighted estimator assigns
7/500 = 0.014 (linear interpolation between order statistics); the gap
0.006 is a difference of quantile conventions, not a floating-point
tolerance. -/
theorem c7_counterexample :
    List.lookup 2 (var_historical_simulation [(0, 1/100), (1, -1/50), (2, 0)]
        2 2 2 (4/5)) = some (some (7/500)) ∧
    List.lookup 2 (var_weighted_historical_simulation [(0, 1/100), (1, -1/50), (2, 0)]
        2 2 2 [1/2, 1/2] (4/5)) = some (1/50) ∧
    (7/500 : ℚ) ≠ 1/50 := by
  exact ⟨by decide, by decide, by decide⟩

theorem zip_replicate_eq_map (l : List ℚ) (w : ℚ) :
    l.zip (List.replicate l.length w) = l.map (fun r => (r, w)) := by
  induction l with
  | nil => rfl
  | cons a rest ih => simp [List.replicate_succ, ih]

theorem zip_replicate_eq_map_of_length (l : List ℚ) (w : ℚ) (m : ℕ) (h : l.length = m) :
    l.zip (List.replicate m w) = l.map (fun r => (r, w)) := by
  subst h
  exact zip_replicate_eq_map l w

theorem eq_map_of_snd_const (A : List (ℚ × ℚ)) (w : ℚ) (h : ∀ p ∈ A, p.2 = w) :
    A = (A.map Prod.fst).map (fun r => (r, w)) := by
  induction A with
  | nil => rfl
  | cons p rest ih =>
    obtain ⟨a, b⟩ := p
    have hp : b = w := h (a, b) (List.mem_cons_self _ rest)
    subst hp
    simp only [List.map_cons]
    rw [← ih (fun q hq => h q (List.mem_cons_of_mem _ hq))]

theorem sortByRet_map_const (l : List ℚ) (w : ℚ) :
    sortByRet (l.map (fun r => (r, w))) =
      (l.mergeSort (fun a b => decide (a ≤ b))).map (fun r => (r, w)) := by
  have hperm : (sortByRet (l.map (fun r => (r, w)))).Perm (l.map (fun r => (r, w))) :=
    sortByRet_perm _
  have hsnd : ∀ p ∈ sortByRet (l.map (fun r => (r, w))), p.2 = w := by
    intro p hp
    obtain ⟨r, _, rfl⟩ := List.mem_map.mp (hperm.mem_iff.mp hp)
    rfl
  have hfsorted : List.Sorted (fun a b : ℚ => a ≤ b)
      ((sortByRet (l.map (fun r => (r, w)))).map Prod.fst) :=
    (List.pairwise_map).mpr (sortByRet_sorted _)
  have hfperm : ((sortByRet (l.map (fun r => (r, w)))).map Prod.fst).Perm l := by
    have h1 := hperm.map Prod.fst
    rw [List.map_map] at h1
    have h2 : (Prod.fst ∘ fun r : ℚ => (r, w)) = id := rfl
    rw [h2, List.map_id] at h1
    exact h1
  have hfeq : (sortByRet (l.map (fun r => (r, w)))).map Prod.fst =
      l.mergeSort (fun a b => decide (a ≤ b)) :=
    List.eq_of_perm_of_sorted (hfperm.trans (List.mergeSort_perm l _).symm)
      hfsorted (mergeSort_rat_sorted l)
  rw [eq_map_of_snd_const _ w hsnd, hfeq]

theorem getD_map_pair (l : List ℚ) (w : ℚ) (j : ℕ) (hj : j < l.length) :
    (l.map (fun r => (r, w))).getD j (0, 0) = (l.getD j 0, w) := by
  rw [List.getD_eq_getElem?_getD, List.getD_eq_getElem?_getD, List.getElem?_map,
    List.getElem?_eq_getElem hj]
  rfl

theorem cumWeight_map_const (l : List ℚ) (w : ℚ) (k : ℕ) (hk : k ≤ l.length) :
    cumWeight (l.map (fun r => (r, w))) k = (k : ℚ) * w := by
  induction l generalizing k with
  | nil =>
    have : k = 0 := by simpa using hk
    subst this
    simp [cumWeight]
  | cons a rest ih =>
    cases k with
    | zero => simp [cumWeight]
    | succ k2 =>
      rw [List.map_cons, cumWeight_cons, ih k2 (by simpa using hk)]
      push_cast
      ring

theorem filterMap_eq_map_of_forall {α β : Type} (l : List α) (f : α → Option β)
    (g : α → β) (h : ∀ x ∈ l, f x = some (g x)) : l.filterMap f = l.map g := by
  induction l with
  | nil => rfl
  | cons a rest ih =>
    simp only [List.filterMap_cons, h a (List.mem_cons_self a rest), List.map_cons,
      ih (fun x hx => h x (List.mem_cons_of_mem a hx))]

/-- Claim C7, amended as the counterexample forces: with the uniform
weight vector (weights[k] = 1/m for all k), on a sorted series where
every evaluation day has at least m prior observations,
var_weighted_historical_simulation coincides exactly with a
historical-simulation variant whose per-day quantile follows the
inverse-CDF (lower order statistic) convention, namely
var_historical_simulation_lower; it does not reproduce
var_historical_simulation itself, whose quantile interpolates linearly
between order statistics. -/
theorem c7_amended_uniform_weights
    (rets : List (ℕ × ℚ)) (sD eD m : ℕ) (c : ℚ)
    (hsort : sortedDates rets) (hm : 1 ≤ m) (hc0 : 0 < c) (hc1 : c < 1)
    (hdays : ∀ d ∈ evalDays rets sD eD, m ≤ getLoc rets d) :
    var_weighted_historical_simulation rets sD eD m
        (List.replicate m (1 / (m : ℚ))) c =
      var_historical_simulation_lower rets sD eD m c := by
  unfold var_weighted_historical_simulation var_historical_simulation_lower
  apply filterMap_eq_map_of_forall
  intro d hd
  obtain ⟨hmem, h1, h2⟩ := mem_evalDays.mp hd
  obtain ⟨i, hi⟩ := List.mem_iff_getElem?.mp hmem
  have hloc : getLoc rets d = i := getLoc_eq rets hsort i d hi
  have hilen : i < rets.length := by
    obtain ⟨hlt, _⟩ := List.getElem?_eq_some_iff.mp hi
    simpa using hlt
  have hmi : m ≤ i := by
    have := hdays d hd
    rwa [hloc] at this
  have hwineq : pySlice (rets.map Prod.snd) ((i : ℤ) - (m : ℤ)) (i : ℤ) =
      ((rets.map Prod.snd).drop (i - m)).take m :=
    window_eq rets i m hmi (le_of_lt hilen)
  have hwinl : (((rets.map Prod.snd).drop (i - m)).take m).length = m :=
    window_length _ i m hmi (by simpa using le_of_lt hilen)
  have hm0 : (0 : ℚ) < (m : ℚ) := by exact_mod_cast hm
  have ht0 : 0 < 1 - c := by linarith
  have ht1 : 1 - c ≤ 1 := by linarith
  have hceil1 : 1 ≤ ⌈(1 - c) * (m : ℚ)⌉ := Int.ceil_pos.mpr (mul_pos ht0 hm0)
  have hceilm : ⌈(1 - c) * (m : ℚ)⌉ ≤ (m : ℤ) := by
    apply Int.ceil_le.mpr
    push_cast
    calc (1 - c) * (m : ℚ) ≤ 1 * (m : ℚ) :=
          mul_le_mul_of_nonneg_right ht1 (le_of_lt hm0)
      _ = (m : ℚ) := one_mul _
  have hj1 : (⌈(1 - c) * (m : ℚ)⌉.toNat - 1) + 1 = ⌈(1 - c) * (m : ℚ)⌉.toNat := by
    omega
  have hjm : ⌈(1 - c) * (m : ℚ)⌉.toNat - 1 < m := by omega
  have hslen : ((((rets.map Prod.snd).drop (i - m)).take m).mergeSort
      (fun a b => decide (a ≤ b))).length = m := by
    rw [List.length_mergeSort, hwinl]
  have hcast : ((⌈(1 - c) * (m : ℚ)⌉.toNat : ℕ) : ℚ) = ((⌈(1 - c) * (m : ℚ)⌉ : ℤ) : ℚ) := by
    exact_mod_cast congrArg (fun z : ℤ => (z : ℚ)) (Int.toNat_of_nonneg (by omega))
  have hday : dayVarWHS rets m (List.replicate m (1 / (m : ℚ))) c d =
      some (-(((((rets.map Prod.snd).drop (i - m)).take m).mergeSort
        (fun a b => decide (a ≤ b))).getD (⌈(1 - c) * (m : ℚ)⌉.toNat - 1) 0)) := by
    simp only [dayVarWHS]
    rw [hloc, hwineq, zip_replicate_eq_map_of_length _ _ _ hwinl, sortByRet_map_const]
    rw [cumFirst_first_cross (1 - c) _ 0 (⌈(1 - c) * (m : ℚ)⌉.toNat - 1)
      (by rw [List.length_map, hslen]; exact hjm)
      (by
        rw [zero_add, cumWeight_map_const _ _ _ (by rw [hslen]; omega), hj1, hcast]
        rw [mul_one_div, le_div_iff₀ hm0]
        exact Int.le_ceil _)
      (by
        intro k hk
        rw [zero_add, cumWeight_map_const _ _ _ (by rw [hslen]; omega)]
        rw [mul_one_div, div_lt_iff₀ hm0]
        have hkint : ((k : ℤ) + 1) < ⌈(1 - c) * (m : ℚ)⌉ := by omega
        have := Int.lt_ceil.mp hkint
        push_cast at this ⊢
        linarith)]
    rw [getD_map_pair _ _ _ (by rw [hslen]; exact hjm)]
  rw [hday]
  simp only [Option.map_some']
  simp only [hloc, hwineq, hwinl]

unseal Rat.mul Rat.inv Rat.add Rat.sub List.mergeSort List.merge in
/-- Witness for the amended claim C7 at the concrete input: series
[(0, 0.01), (1, -0.02), (2, 0)], range [2,2], m = 2, c = 4/5, uniform
weights [1/2, 1/2]. -/
theorem c7_witness :
    sortedDates [(0, 1/100), (1, -1/50), (2, 0)] ∧
    (∀ d ∈ evalDays [(0, 1/100), (1, -1/50), (2, 0)] 2 2,
      2 ≤ getLoc [(0, 1/100), (1, -1/50), (2, 0)] d) ∧
    var_weighted_historical_simulation [(0, 1/100), (1, -1/50), (2, 0)] 2 2 2
        (List.replicate 2 (1 / (2 : ℚ))) (4/5) =
      var_historical_simulation_lower [(0, 1/100), (1, -1/50), (2, 0)] 2 2 2 (4/5) :=
  ⟨by decide, by decide,
    c7_amended_uniform_weights [(0, 1/100), (1, -1/50), (2, 0)] 2 2 2 (4/5)
      (by decide) (by decide) (by decide) (by decide) (by decide)⟩

/-! ### Claim C9: no look-ahead -/

/-- Claim C9: the VaR that var_historical_simulation assigns to an
evaluation day d depends only on the m returns strictly preceding d:
two sorted return series containing d (at positions i1 and i2, both
at least m) whose windows of m values strictly preceding d agree yield
the same VaR entry for d; in particular no return at or after d
influences the result. -/
theorem c9_no_lookahead
    (rets1 rets2 : List (ℕ × ℚ)) (sD eD m i1 i2 d : ℕ) (c : ℚ)
    (hs1 : sortedDates rets1) (hs2 : sortedDates rets2)
    (hd1 : (rets1.map Prod.fst)[i1]? = some d)
    (hd2 : (rets2.map Prod.fst)[i2]? = some d)
    (hm1 : m ≤ i1) (hm2 : m ≤ i2)
    (h1 : sD ≤ d) (h2 : d ≤ eD)
    (hw : ((rets1.map Prod.snd).drop (i1 - m)).take m =
          ((rets2.map Prod.snd).drop (i2 - m)).take m) :
    List.lookup d (var_historical_simulation rets1 sD eD m c) =
      List.lookup d (var_historical_simulation rets2 sD eD m c) := by
  have hl1 : i1 < rets1.length := by
    obtain ⟨hlt, _⟩ := List.getElem?_eq_some_iff.mp hd1
    simpa using hlt
  have hl2 : i2 < rets2.length := by
    obtain ⟨hlt, _⟩ := List.getElem?_eq_some_iff.mp hd2
    simpa using hlt
  have hk1 : List.lookup d (var_historical_simulation rets1 sD eD m c) =
      some (dayVarHS rets1 m c d) := by
    unfold var_historical_simulation
    exact lookup_map_self _ _ _ (mem_evalDays.mpr ⟨List.getElem?_mem hd1, h1, h2⟩)
  have hk2 : List.lookup d (var_historical_simulation rets2 sD eD m c) =
      some (dayVarHS rets2 m c d) := by
    unfold var_historical_simulation
    exact lookup_map_self _ _ _ (mem_evalDays.mpr ⟨List.getElem?_mem hd2, h1, h2⟩)
  rw [hk1, hk2]
  simp only [dayVarHS]
  rw [getLoc_eq rets1 hs1 i1 d hd1, getLoc_eq rets2 hs2 i2 d hd2]
  rw [window_eq rets1 i1 m hm1 (le_of_lt hl1), window_eq rets2 i2 m hm2 (le_of_lt hl2), hw]

unseal Rat.mul Rat.inv Rat.add Rat.sub List.mergeSort List.merge in
/-- Witness for claim C9: the two series agree on the two returns
preceding day 2 but differ at day 2 and afterwards; the VaR entry for
day 2 is the same. -/
theorem c9_witness :
    sortedDates [(0, 1/100), (1, -1/50), (2, 0)] ∧
    sortedDates [(0, 1/100), (1, -1/50), (2, 77), (3, 123)] ∧
    List.lookup 2 (var_historical_simulation [(0, 1/100), (1, -1/50), (2, 0)] 2 2 2 (4/5)) =
      List.lookup 2
        (var_historical_simulation [(0, 1/100), (1, -1/50), (2, 77), (3, 123)] 2 2 2 (4/5)) :=
  ⟨by decide, by decide,
    c9_no_lookahead [(0, 1/100), (1, -1/50), (2, 0)]
      [(0, 1/100), (1, -1/50), (2, 77), (3, 123)] 2 2 2 2 2 2 (4/5)
      (by decide) (by decide) (by decide) (by decide) (by decide) (by decide)
      (by decide) (by decide) (by decide)⟩

/-! ### Claim C10: evaluation days come from the index -/

/-- Claim C10: every evaluation day processed by the two VaR functions
is drawn from rets[start_date:end_date].index, hence present in the
index with a successful position lookup (getLoc in bounds); a date
inside [start_date, end_date] that is absent from the index produces no
output entry in either function rather than an error. -/
theorem c10_days_from_index
    (rets : List (ℕ × ℚ)) (sD eD m : ℕ) (weights : List ℚ) (c : ℚ)
    (hsort : sortedDates rets) :
    (∀ d ∈ evalDays rets sD eD, d ∈ rets.map Prod.fst ∧ getLoc rets d < rets.length) ∧
    (∀ d, sD ≤ d → d ≤ eD → d ∉ rets.map Prod.fst →
      List.lookup d (var_historical_simulation rets sD eD m c) = none ∧
      List.lookup d (var_weighted_historical_simulation rets sD eD m weights c) = none) := by
  constructor
  · intro d hd
    have hmem := (mem_evalDays.mp hd).1
    refine ⟨hmem, ?_⟩
    obtain ⟨i, hi⟩ := List.mem_iff_getElem?.mp hmem
    rw [getLoc_eq rets hsort i d hi]
    obtain ⟨hlt, _⟩ := List.getElem?_eq_some_iff.mp hi
    simpa using hlt
  · intro d _ _ hnot
    have hnd : d ∉ evalDays rets sD eD := fun hmem => hnot (mem_evalDays.mp hmem).1
    constructor
    · unfold var_historical_simulation
      exact lookup_map_self_none _ _ _ hnd
    · unfold var_weighted_historical_simulation
      exact lookup_filterMap_pairs_none _ _ _ hnd

/-- Witness for claim C10 on the series with dates 0 and 2 and the
range [0, 3]: day 1 lies in the range but not in the index. -/
theorem c10_witness :
    sortedDates [(0, 1), (2, 5)] ∧
    ((∀ d ∈ evalDays [(0, 1), (2, 5)] 0 3,
        d ∈ ([(0, 1), (2, 5)] : List (ℕ × ℚ)).map Prod.fst ∧
        getLoc [(0, 1), (2, 5)] d < ([(0, 1), (2, 5)] : List (ℕ × ℚ)).length) ∧
     (∀ d, 0 ≤ d → d ≤ 3 → d ∉ ([(0, 1), (2, 5)] : List (ℕ × ℚ)).map Prod.fst →
        List.lookup d (var_historical_simulation [(0, 1), (2, 5)] 0 3 1 (1/2)) = none ∧
        List.lookup d
          (var_weighted_historical_simulation [(0, 1), (2, 5)] 0 3 1 [1] (1/2)) = none)) :=
  ⟨by decide, c10_days_from_index [(0, 1), (2, 5)] 0 3 1 [1] (1/2) (by decide)⟩

/-! ### Claim C4: underflowing windows do not raise -/

unseal Rat.mul Rat.inv Rat.add Rat.sub List.mergeSort List.merge in
/-- Claim C4 (code behavior at the failing input): with m = 5 and the
evaluation day at position 2 of a 5-observation series, the iloc slice
[2-5, 2) has a negative start that wraps to max(0, n-3) = 2, giving an
empty window.  var_historical_simulation emits a NaN entry for the day
(quantile of an empty window); the weighted estimator's concat aligns
the empty window against the five weights into five NaN-return rows,
the first cumulative weight 1/5 already reaches the 0.01 threshold,
and -NaN is assigned, so the day gets a NaN entry as well.  Both
functions produce a value for the day; neither raises a
WindowUnderflow error. -/
theorem c4_window_underflow_not_raised :
    var_historical_simulation
        [(0, 1/100), (1, 2/100), (2, 3/100), (3, 4/100), (4, 5/100)] 2 2 5 (99/100) =
      [(2, none)] ∧
    var_weighted_historical_simulation_concat
        [(0, 1/100), (1, 2/100), (2, 3/100), (3, 4/100), (4, 5/100)] 2 2 5
        [1/5, 1/5, 1/5, 1/5, 1/5] (99/100) = [(2, none)] := by
  exact ⟨by decide, by decide⟩

/-! ### Claim C5: an unreached threshold is silently skipped -/

unseal Rat.mul Rat.inv Rat.add Rat.sub List.mergeSort List.merge in
/-- Claim C5 (code behavior at the failing input): with weights summing
to 0.006 < 0.01 = 1 - confidence, the cumulative weights never reach
the threshold for day 2, and var_weighted_historical_simulation returns
an output with no entry for that day (here: the empty series) instead
of a ThresholdNotReached error. -/
theorem c5_threshold_not_reached_silent :
    var_weighted_historical_simulation [(0, 1/100), (1, -1/50), (2, 0)] 2 2 2
      [1/500, 1/250] (99/100) = [] := by decide

/-! ### Claim C8: tie order under the per-day sort -/

unseal Rat.mul Rat.inv Rat.add Rat.sub List.mergeSort List.merge in
/-- Claim C8 (code behavior at the failing input): for the window with
tied returns 0.01 paired with distinct weights 0.3 and 0.7, two
distinct arrangements are both sorted by return ascending, so sorting
by return alone does not determine the weight pairing (the source's
sort_values uses the unstable quicksort kind, so it guarantees neither
arrangement); the threshold scan nevertheless produces the same VaR for
both arrangements, and the embedding's stable sort keeps the
chronological order.  -/
theorem c8_tie_order :
    ([((1:ℚ)/100, (3:ℚ)/10), (1/100, 7/10)] : List (ℚ × ℚ)) ≠
        [(1/100, 7/10), (1/100, 3/10)] ∧
    List.Perm ([((1:ℚ)/100, (3:ℚ)/10), (1/100, 7/10)] : List (ℚ × ℚ))
        [(1/100, 7/10), (1/100, 3/10)] ∧
    List.Pairwise (fun a b => a.1 ≤ b.1) ([((1:ℚ)/100, (3:ℚ)/10), (1/100, 7/10)] : List (ℚ × ℚ)) ∧
    List.Pairwise (fun a b => a.1 ≤ b.1) ([((1:ℚ)/100, (7:ℚ)/10), (1/100, 3/10)] : List (ℚ × ℚ)) ∧
    cumFirst (1 - 99/100) 0 [((1:ℚ)/100, (3:ℚ)/10), (1/100, 7/10)] =
      cumFirst (1 - 99/100) 0 [(1/100, 7/10), (1/100, 3/10)] ∧
    sortByRet [((1:ℚ)/100, (3:ℚ)/10), (1/100, 7/10)] =
      [((1:ℚ)/100, (3:ℚ)/10), (1/100, 7/10)] := by
  refine ⟨by decide, by decide, ?_, ?_, by decide, by decide⟩
  · norm_num [List.pairwise_cons]
  · norm_num [List.pairwise_cons]

end Econometrics
